import Mathlib

/-!
Verification of the ingestion pipeline of the regulatory-data-bridge
repository: content normalization and hashing, the change tracker
(record_version / record_removed / seed_if_missing), the URL-keyed
document upsert, the ingest orchestrator, and the feed/HTML extractors.

Text is modelled as `List Char`.  Python truthiness of strings and
options is modelled explicitly (`[]`/`none` are falsy).  Machine words
in the SHA-1 implementation are `Nat` reduced mod 2^32.
-/

set_option maxHeartbeats 1000000

abbrev Str := List Char

/-- ASCII/latin whitespace recognized by Python's `str.strip()`
(restricted to the ASCII range, which is all the code ever feeds it). -/
def isPySpace (c : Char) : Bool :=
  c = ' ' || c = '\t' || c = '\n' || c = '\r' || c = '\x0b' || c = '\x0c'

/-- Left strip: drop leading whitespace. -/
def lStrip (l : Str) : Str := l.dropWhile isPySpace

/-- Right strip: drop trailing whitespace. -/
def rStrip (l : Str) : Str := (l.reverse.dropWhile isPySpace).reverse

/-- Python `str.strip()`. -/
def pyStrip (l : Str) : Str := lStrip (rStrip l)

/-- One pass over the text performing
`s.replace("\r\n", "\n").replace("\r", "\n")`: a CR directly followed
by LF is merged into one LF, any other CR becomes LF.  (The two
sequential Python replaces are equivalent to this single pass because
occurrences of CRLF cannot overlap and the first replace leaves no CR
directly before an LF.) -/
def replaceCR : Str → Str
  | [] => []
  | '\r' :: '\n' :: rest => '\n' :: replaceCR rest
  | '\r' :: rest => '\n' :: replaceCR rest
  | c :: rest => c :: replaceCR rest

/-- `change_tracker.normalize_text`: `None`/empty is normalized to the
empty string; otherwise line endings are unified and the result is
stripped. -/
def normalize_text : Option Str → Str
  | none => []
  | some s => pyStrip (replaceCR s)

-- ---------------------------------------------------------------------
-- SHA-1 (as used by `compute_hash` via hashlib.sha1(...).hexdigest()).
-- ---------------------------------------------------------------------

/-- Truncate to a 32-bit word. -/
def w32 (n : Nat) : Nat := n % 4294967296

/-- Rotate a 32-bit word left by `n` bits. -/
def rotl (n x : Nat) : Nat := w32 ((x <<< n) ||| (x >>> (32 - n)))

/-- UTF-8 encoding of one character (Python `str.encode("utf-8")`). -/
def utf8Bytes (c : Char) : List Nat :=
  let n := c.toNat
  if n < 128 then [n]
  else if n < 2048 then [192 ||| (n >>> 6), 128 ||| (n &&& 63)]
  else if n < 65536 then
    [224 ||| (n >>> 12), 128 ||| ((n >>> 6) &&& 63), 128 ||| (n &&& 63)]
  else
    [240 ||| (n >>> 18), 128 ||| ((n >>> 12) &&& 63),
     128 ||| ((n >>> 6) &&& 63), 128 ||| (n &&& 63)]

/-- UTF-8 encoding of a text. -/
def utf8 (s : Str) : List Nat := (s.map utf8Bytes).flatten

/-- SHA-1 message padding: append 0x80, zero padding, and the 64-bit
big-endian bit length, reaching a multiple of 64 bytes. -/
def sha1Pad (msg : List Nat) : List Nat :=
  let L := msg.length
  let padLen := (64 - ((L + 9) % 64)) % 64
  let bits := 8 * L
  msg ++ [128] ++ List.replicate padLen 0 ++
    [(bits >>> 56) &&& 255, (bits >>> 48) &&& 255, (bits >>> 40) &&& 255,
     (bits >>> 32) &&& 255, (bits >>> 24) &&& 255, (bits >>> 16) &&& 255,
     (bits >>> 8) &&& 255, bits &&& 255]

/-- Split a byte list into 64-byte chunks. -/
def chunks64 (l : List Nat) : List (List Nat) :=
  match l with
  | [] => []
  | a :: rest => (a :: rest).take 64 :: chunks64 (rest.drop 63)
termination_by l.length
decreasing_by
  simp only [List.length_drop, List.length_cons]
  omega

/-- Combine bytes into big-endian 32-bit words. -/
def toWords : List Nat → List Nat
  | b0 :: b1 :: b2 :: b3 :: rest =>
    (((b0 * 256 + b1) * 256 + b2) * 256 + b3) :: toWords rest
  | _ => []

/-- One step of the SHA-1 message-schedule extension. -/
def extendOnce (ws : List Nat) : List Nat :=
  let i := ws.length
  ws ++ [rotl 1 ((ws.getD (i - 3) 0) ^^^ (ws.getD (i - 8) 0) ^^^
                 (ws.getD (i - 14) 0) ^^^ (ws.getD (i - 16) 0))]

/-- Iterate the message-schedule extension. -/
def extendN : Nat → List Nat → List Nat
  | 0, ws => ws
  | n + 1, ws => extendN n (extendOnce ws)

/-- Round function and constant for SHA-1 round `i`. -/
def sha1FK (i b c d : Nat) : Nat × Nat :=
  if i < 20 then (((b &&& c) ||| ((b ^^^ 4294967295) &&& d)), 1518500249)
  else if i < 40 then (b ^^^ c ^^^ d, 1859775393)
  else if i < 60 then ((b &&& c) ||| (b &&& d) ||| (c &&& d), 2400959708)
  else (b ^^^ c ^^^ d, 3395469782)

/-- SHA-1 compression of one 64-byte block into the running state. -/
def sha1Block (h : Nat × Nat × Nat × Nat × Nat) (block : List Nat) :
    Nat × Nat × Nat × Nat × Nat :=
  let ws := extendN 64 (toWords block)
  let fin := ws.enum.foldl
    (fun st p =>
      let (a, b, c, d, e) := st
      let (f, k) := sha1FK p.1 b c d
      let temp := w32 (rotl 5 a + f + e + k + p.2)
      (temp, a, rotl 30 b, c, d))
    (h.1, h.2.1, h.2.2.1, h.2.2.2.1, h.2.2.2.2)
  (w32 (h.1 + fin.1), w32 (h.2.1 + fin.2.1), w32 (h.2.2.1 + fin.2.2.1),
   w32 (h.2.2.2.1 + fin.2.2.2.1), w32 (h.2.2.2.2 + fin.2.2.2.2))

/-- SHA-1 of a byte list: the five 32-bit state words. -/
def sha1 (msg : List Nat) : Nat × Nat × Nat × Nat × Nat :=
  (chunks64 (sha1Pad msg)).foldl sha1Block
    (1732584193, 4023233417, 2562383102, 271733878, 3285377520)

/-- One lowercase hex digit. -/
def hexDigit (n : Nat) : Char :=
  if n < 10 then Char.ofNat (48 + n) else Char.ofNat (87 + n)

/-- Eight lowercase hex digits of a 32-bit word, big-endian. -/
def hex8 (n : Nat) : Str :=
  [hexDigit ((n >>> 28) &&& 15), hexDigit ((n >>> 24) &&& 15),
   hexDigit ((n >>> 20) &&& 15), hexDigit ((n >>> 16) &&& 15),
   hexDigit ((n >>> 12) &&& 15), hexDigit ((n >>> 8) &&& 15),
   hexDigit ((n >>> 4) &&& 15), hexDigit (n &&& 15)]

/-- `hashlib.sha1(bytes).hexdigest()`. -/
def sha1hex (msg : List Nat) : Str :=
  let h := sha1 msg
  hex8 h.1 ++ hex8 h.2.1 ++ hex8 h.2.2.1 ++ hex8 h.2.2.2.1 ++ hex8 h.2.2.2.2

/-- `change_tracker.compute_hash`: SHA-1 hex digest of the UTF-8 bytes. -/
def compute_hash (text : Str) : Str := sha1hex (utf8 text)

theorem sha1hex_ne_nil (msg : List Nat) : sha1hex msg ≠ [] := by
  simp [sha1hex, hex8]

theorem compute_hash_ne_nil (text : Str) : compute_hash text ≠ [] :=
  sha1hex_ne_nil _

-- ---------------------------------------------------------------------
-- Change tracker (app/services/change_tracker.py)
-- ---------------------------------------------------------------------

/-- Python truthiness of an optional string: `None` and `""` are falsy. -/
def truthyOS : Option Str → Bool
  | none => false
  | some s => decide (s ≠ [])

/-- Python `a or b` for `a : Optional[str]`, `b : str`. -/
def pyOrS (a : Option Str) (b : Str) : Str :=
  match a with
  | none => b
  | some s => if s = [] then b else s

/-- Python `a or now` for an optional datetime (datetimes are truthy). -/
def orNow (a : Option Nat) (now : Nat) : Option Nat :=
  match a with
  | none => some now
  | some t => some t

inductive ChangeType where
  | ADDED | UPDATED | REMOVED
deriving DecidableEq, Repr

/-- Return value of `record_version`. -/
inductive RecordResult where
  | ADDED | UPDATED | NOCHANGE
deriving DecidableEq, Repr

/-- Return value of `seed_if_missing`. -/
inductive SeedResult where
  | ADDED | SEEDED_DOC | SKIP
deriving DecidableEq, Repr

/-- The tracking-relevant columns of a `Document` row. -/
structure Doc where
  title : Str
  url : Str
  current_hash : Option Str
  first_seen_at : Option Nat
  last_seen_at : Option Nat
  last_changed_at : Option Nat
deriving DecidableEq, Repr

/-- A `DocumentVersion` row (for one fixed document). -/
structure Version where
  version_no : Nat
  content_hash : Str
  title : Str
  snapshot : Str
  change_type : ChangeType
deriving DecidableEq, Repr

/-- A document together with its version rows, in insertion order. -/
structure TrackState where
  doc : Doc
  versions : List Version
deriving DecidableEq, Repr

def SNAPSHOT_MAX_CHARS : Nat := 20000

/-- The hashing basis of `record_version` / `seed_if_missing`:
`normalize_text(extracted_text) or normalize_text(f"{title or doc.title}\n{doc.url}")`. -/
def basisOf (docTitle docUrl : Str) (extracted_text title : Option Str) : Str :=
  let n := normalize_text extracted_text
  if n = [] then normalize_text (some (pyOrS title docTitle ++ '\n' :: docUrl)) else n

/-- Maximum existing version_no of a document (0 when it has none):
the `order_by(version_no.desc()).first()` query. -/
def maxNo (vs : List Version) : Nat :=
  vs.foldl (fun a v => max a v.version_no) 0

/-- `change_tracker.record_version(db, doc, extracted_text=…, title=…)`. -/
def record_version (now : Nat) (extracted_text title : Option Str)
    (s : TrackState) : RecordResult × TrackState :=
  let basis := basisOf s.doc.title s.doc.url extracted_text title
  let new_hash := compute_hash basis
  if truthyOS s.doc.current_hash = false then
    -- first time seeing this doc with content
    (.ADDED,
     ⟨{ s.doc with
        current_hash := some new_hash
        first_seen_at := some now
        last_seen_at := some now
        last_changed_at := some now },
      s.versions ++
        [⟨1, new_hash, pyOrS title s.doc.title,
          basis.take SNAPSHOT_MAX_CHARS, .ADDED⟩]⟩)
  else
    -- subsequent fetch: always refresh last_seen_at
    if s.doc.current_hash = some new_hash then
      (.NOCHANGE, ⟨{ s.doc with last_seen_at := some now }, s.versions⟩)
    else
      let next := maxNo s.versions + 1
      let newTitle :=
        match title with
        | some t => if t ≠ [] ∧ s.doc.title ≠ t then t else s.doc.title
        | none => s.doc.title
      (.UPDATED,
       ⟨{ s.doc with
          title := newTitle
          current_hash := some new_hash
          last_seen_at := some now
          last_changed_at := some now },
        s.versions ++
          [⟨next, new_hash, pyOrS title s.doc.title,
            basis.take SNAPSHOT_MAX_CHARS, .UPDATED⟩]⟩)

/-- `change_tracker.record_removed(db, doc, reason=…)` (always returns
"REMOVED"; only the state effect is modelled). -/
def record_removed (now : Nat) (reason : Str) (s : TrackState) : TrackState :=
  let next := maxNo s.versions + 1
  let v : Version :=
    ⟨next,
     pyOrS s.doc.current_hash (compute_hash (s.doc.title ++ '\n' :: s.doc.url)),
     s.doc.title,
     "(Document marked removed: ".toList ++ reason ++ ")".toList,
     .REMOVED⟩
  ⟨{ s.doc with last_seen_at := some now, last_changed_at := some now },
   s.versions ++ [v]⟩

/-- `change_tracker.seed_if_missing(db, doc, text=…, title=…)`. -/
def seed_if_missing (now : Nat) (text title : Option Str)
    (s : TrackState) : SeedResult × TrackState :=
  if truthyOS s.doc.current_hash then (.SKIP, s)
  else
    let basis := basisOf s.doc.title s.doc.url text title
    let h := compute_hash basis
    if s.versions.length ≠ 0 then
      -- a version already exists: only fill missing doc fields
      (.SEEDED_DOC,
       ⟨{ s.doc with
          current_hash := some (pyOrS s.doc.current_hash h)
          first_seen_at := orNow s.doc.first_seen_at now
          last_seen_at := orNow s.doc.last_seen_at now
          last_changed_at := orNow s.doc.last_changed_at now },
        s.versions⟩)
    else
      (.ADDED,
       ⟨{ s.doc with
          current_hash := some h
          first_seen_at := some now
          last_seen_at := some now
          last_changed_at := some now },
        s.versions ++
          [⟨1, h, pyOrS title s.doc.title,
            basis.take SNAPSHOT_MAX_CHARS, .ADDED⟩]⟩)

/-- One change-tracker operation applied to a document. -/
inductive TrackOp where
  | version (extracted_text title : Option Str)
  | removed (reason : Str)
  | seed (text title : Option Str)
deriving DecidableEq, Repr

/-- Apply one operation (discarding the status result). -/
def trackStep (op : TrackOp) (now : Nat) (s : TrackState) : TrackState :=
  match op with
  | .version et t => (record_version now et t s).2
  | .removed r => record_removed now r s
  | .seed t ti => (seed_if_missing now t ti s).2

/-- Apply a timed sequence of operations. -/
def trackRun (s : TrackState) : List (TrackOp × Nat) → TrackState
  | [] => s
  | (op, now) :: rest => trackRun (trackStep op now s) rest

/-- A fresh document as first created by the upsert: no hash, no
tracking timestamps, no versions. -/
def freshState (title url : Str) : TrackState :=
  ⟨⟨title, url, none, none, none, none⟩, []⟩

/-- All versions of the first version row (if any) are ADDED. -/
def firstIsAdded (vs : List Version) : Prop :=
  ∀ v0, vs.head? = some v0 → v0.change_type = ChangeType.ADDED

/-- The monotonic-versioning invariant: the version_no column reads
exactly 1..N in insertion order, the first version is ADDED, and the
document carries a (truthy) hash exactly when it has version rows. -/
def TrackInv (s : TrackState) : Prop :=
  s.versions.map (fun v => v.version_no) = List.range' 1 s.versions.length ∧
  firstIsAdded s.versions ∧
  (truthyOS s.doc.current_hash = true ↔ s.versions ≠ [])

theorem maxNo_eq_length (vs : List Version)
    (h : vs.map (fun v => v.version_no) = List.range' 1 vs.length) :
    maxNo vs = vs.length := by
  have hfold : maxNo vs = (vs.map (fun v => v.version_no)).foldl max 0 := by
    rw [List.foldl_map]
    rfl
  rw [hfold, h]
  clear hfold h
  generalize vs.length = n
  induction n with
  | zero => rfl
  | succ k ih =>
    rw [List.range'_1_concat, List.foldl_append]
    simp [ih]
    omega

theorem truthy_of_inv_ne_nil {s : TrackState} (h3 : truthyOS s.doc.current_hash = true ↔ s.versions ≠ []) (hc : ¬ truthyOS s.doc.current_hash = false) : s.versions ≠ [] := by
  apply h3.mp
  revert hc
  cases truthyOS s.doc.current_hash <;> simp

theorem versions_nil_of_falsy {s : TrackState} (h3 : truthyOS s.doc.current_hash = true ↔ s.versions ≠ []) (hc : truthyOS s.doc.current_hash = false) : s.versions = [] := by
  by_contra hne
  rw [h3.mpr hne] at hc
  exact Bool.noConfusion hc

theorem append_inv (vs : List Version) (v : Version)
    (h1 : vs.map (fun w => w.version_no) = List.range' 1 vs.length)
    (h2 : firstIsAdded vs) (hne : vs ≠ [])
    (hno : v.version_no = maxNo vs + 1) :
    (vs ++ [v]).map (fun w => w.version_no) =
      List.range' 1 (vs ++ [v]).length ∧
    firstIsAdded (vs ++ [v]) := by
  constructor
  · rw [List.map_append, h1, List.length_append]
    simp only [List.map_cons, List.map_nil, List.length_cons, List.length_nil]
    rw [hno, maxNo_eq_length vs h1, List.range'_1_concat]
    simp [Nat.add_comm]
  · cases vs with
    | nil => exact absurd rfl hne
    | cons a as =>
      intro v0 hh
      simp only [List.cons_append, List.head?_cons, Option.some.injEq] at hh
      subst hh
      exact h2 a rfl

theorem trackStep_inv (op : TrackOp) (now : Nat) (s : TrackState)
    (hInv : TrackInv s)
    (hRem : ∀ r, op = TrackOp.removed r → truthyOS s.doc.current_hash = true) :
    TrackInv (trackStep op now s) := by
  obtain ⟨h1, h2, h3⟩ := hInv
  cases op with
  | version et t =>
    by_cases hc : truthyOS s.doc.current_hash = false
    · have hv : s.versions = [] := versions_nil_of_falsy h3 hc
      simp only [trackStep, record_version, hc, if_true, hv]
      refine ⟨by simp, ?_, ?_⟩
      · intro v0 hh
        simp only [List.nil_append, List.head?_cons, Option.some.injEq] at hh
        subst hh
        rfl
      · simp [truthyOS, compute_hash_ne_nil]
    · have hne : s.versions ≠ [] := truthy_of_inv_ne_nil h3 hc
      simp only [trackStep, record_version, hc, if_false]
      by_cases heq : s.doc.current_hash =
          some (compute_hash (basisOf s.doc.title s.doc.url et t))
      · rw [if_pos heq]
        exact ⟨h1, h2, by simpa using h3⟩
      · rw [if_neg heq]
        refine ⟨(append_inv _ _ h1 h2 hne rfl).1,
                (append_inv _ _ h1 h2 hne rfl).2, ?_⟩
        simp [truthyOS, compute_hash_ne_nil]
  | removed r =>
    have hc : truthyOS s.doc.current_hash = true := hRem r rfl
    have hne : s.versions ≠ [] := h3.mp hc
    simp only [trackStep, record_removed]
    refine ⟨(append_inv _ _ h1 h2 hne rfl).1,
            (append_inv _ _ h1 h2 hne rfl).2, ?_⟩
    simp only [hc, true_iff]
    simp [hne]
  | seed t ti =>
    by_cases hc : truthyOS s.doc.current_hash = true
    · simp only [trackStep, seed_if_missing]
      rw [if_pos hc]
      exact ⟨h1, h2, h3⟩
    · have hc' : truthyOS s.doc.current_hash = false := by
        revert hc; cases truthyOS s.doc.current_hash <;> simp
      have hv : s.versions = [] := versions_nil_of_falsy h3 hc'
      simp only [trackStep, seed_if_missing]
      rw [if_neg hc, if_neg (by simp [hv])]
      refine ⟨by simp [hv], ?_, ?_⟩
      · intro v0 hh
        simp only [hv, List.nil_append, List.head?_cons, Option.some.injEq] at hh
        subst hh
        rfl
      · simp [hv, truthyOS, compute_hash_ne_nil]

/-- A run is valid when `record_removed` is only invoked on a document
whose `current_hash` is already set (the documented use: a
previously-seen URL disappearing). -/
def validOps : TrackState → List (TrackOp × Nat) → Prop
  | _, [] => True
  | s, (op, now) :: rest =>
      (∀ r, op = TrackOp.removed r → truthyOS s.doc.current_hash = true) ∧
      validOps (trackStep op now s) rest

/-- C1 (amended): starting from any state satisfying the
monotonic-versioning invariant (in particular a fresh document), any
sequence of change-tracker operations in which `record_removed` is only
applied to a document with a stored `current_hash` preserves it: the
version_no values read exactly 1..N, and the version with
version_no = 1 has change_type = ADDED. -/
theorem c1_versions_monotonic (ops : List (TrackOp × Nat)) (s : TrackState)
    (hInv : TrackInv s) (hValid : validOps s ops) :
    TrackInv (trackRun s ops) := by
  induction ops generalizing s with
  | nil => exact hInv
  | cons p rest ih =>
    obtain ⟨hhead, htail⟩ := hValid
    exact ih (trackStep p.1 p.2 s) (trackStep_inv p.1 p.2 s hInv hhead) htail

theorem record_version_truthy (now : Nat) (et t : Option Str) (s : TrackState) :
    truthyOS ((record_version now et t s).2).doc.current_hash = true := by
  unfold record_version
  by_cases hc : truthyOS s.doc.current_hash = false
  · rw [if_pos hc]
    simp [truthyOS, compute_hash_ne_nil]
  · rw [if_neg hc]
    by_cases heq : s.doc.current_hash =
        some (compute_hash (basisOf s.doc.title s.doc.url et t))
    · rw [if_pos heq]
      revert hc
      cases truthyOS s.doc.current_hash <;> simp
    · rw [if_neg heq]
      simp [truthyOS, compute_hash_ne_nil]

/-- Concrete operation sequence for the C1 witness. -/
def c1ops : List (TrackOp × Nat) :=
  [(TrackOp.version (some "hello world".toList) none, 3),
   (TrackOp.version (some "hello world v2".toList) (some "T2".toList), 7),
   (TrackOp.removed "gone".toList, 9)]

theorem c1_versions_monotonic_witness :
    validOps (freshState "T".toList "http://x/".toList) c1ops ∧
    TrackInv (trackRun (freshState "T".toList "http://x/".toList) c1ops) := by
  have hInv : TrackInv (freshState "T".toList "http://x/".toList) := by
    refine ⟨rfl, ?_, by simp [freshState, truthyOS]⟩
    intro v0 hh
    simp [freshState] at hh
  have hValid : validOps (freshState "T".toList "http://x/".toList) c1ops := by
    show (∀ _, _) ∧ ((∀ _, _) ∧ ((∀ _, _) ∧ True))
    refine ⟨fun r h => TrackOp.noConfusion h,
            fun r h => TrackOp.noConfusion h,
            fun r _ => ?_, trivial⟩
    exact record_version_truthy _ _ _ _
  exact ⟨hValid, c1_versions_monotonic c1ops _ hInv hValid⟩

/-- C1 counterexample: calling `record_removed` on a document that has
no versions yet (its URL 404s before any successful observation)
creates version_no = 1 with change_type = REMOVED, so the version with
version_no = 1 is not ADDED. -/
theorem c1_counterexample :
    (trackRun (freshState "T".toList "http://x/".toList)
        [(TrackOp.removed "gone".toList, 0)]).versions.map
      (fun v => (v.version_no, v.change_type)) = [(1, ChangeType.REMOVED)] := rfl

/-- C2: when the document already has a (truthy) stored hash and the
normalized hashing basis of the new call hashes to that same value,
`record_version` returns NOCHANGE, only refreshes `last_seen_at`, and
inserts no new version row. -/
theorem c2_record_version_idempotent (s : TrackState) (now : Nat)
    (et t : Option Str) (h : Str)
    (hh : s.doc.current_hash = some h) (hne : h ≠ [])
    (hhash : compute_hash (basisOf s.doc.title s.doc.url et t) = h) :
    record_version now et t s =
      (RecordResult.NOCHANGE,
       ⟨{ s.doc with last_seen_at := some now }, s.versions⟩) := by
  unfold record_version
  rw [if_neg (by simp [truthyOS, hh, hne])]
  rw [if_pos (by rw [hhash, hh])]

/-- Concrete state for the C2 witness: its stored hash is the hash of
the basis that the repeated call recomputes. -/
def c2state : TrackState :=
  ⟨⟨"T".toList, "http://x/".toList,
    some (compute_hash (basisOf "T".toList "http://x/".toList
      (some "body text".toList) none)),
    some 1, some 1, some 1⟩,
   [⟨1, compute_hash (basisOf "T".toList "http://x/".toList
      (some "body text".toList) none), "T".toList, "body text".toList,
     ChangeType.ADDED⟩]⟩

theorem c2_record_version_idempotent_witness :
    record_version 5 (some "body text".toList) none c2state =
      (RecordResult.NOCHANGE,
       ⟨{ c2state.doc with last_seen_at := some 5 }, c2state.versions⟩) :=
  c2_record_version_idempotent c2state 5 (some "body text".toList) none _
    rfl (compute_hash_ne_nil _) rfl

/-- C3: `record_removed` appends exactly one REMOVED version at
version_no = (max existing version_no, or 0) + 1, refreshes
`last_seen_at`/`last_changed_at`, and leaves `current_hash` (and the
other document fields) unchanged. -/
theorem c3_record_removed_frame (s : TrackState) (now : Nat) (reason : Str) :
    (record_removed now reason s).doc.current_hash = s.doc.current_hash ∧
    (record_removed now reason s).doc.title = s.doc.title ∧
    (record_removed now reason s).doc.url = s.doc.url ∧
    (record_removed now reason s).doc.first_seen_at = s.doc.first_seen_at ∧
    (record_removed now reason s).doc.last_seen_at = some now ∧
    (record_removed now reason s).doc.last_changed_at = some now ∧
    ∃ v, (record_removed now reason s).versions = s.versions ++ [v] ∧
      v.version_no = maxNo s.versions + 1 ∧
      v.change_type = ChangeType.REMOVED := by
  refine ⟨rfl, rfl, rfl, rfl, rfl, rfl, ⟨_, rfl, rfl, rfl⟩⟩

/-- C9: if `extracted_text` is absent or normalizes to the empty
string, the hashing basis falls back to the normalization of
`(title or doc.title) + "\n" + doc.url`; consequently the stored hash
of a first observation (`record_version` on a hash-less document, or
the initial-version path of `seed_if_missing`) is a function of the
effective title and URL alone. -/
theorem c9_basis_fallback (s : TrackState) (now : Nat) (et t : Option Str)
    (hempty : normalize_text et = [])
    (hfalsy : truthyOS s.doc.current_hash = false)
    (hnov : s.versions = []) :
    basisOf s.doc.title s.doc.url et t =
      normalize_text (some (pyOrS t s.doc.title ++ '\n' :: s.doc.url)) ∧
    ((record_version now et t s).2).doc.current_hash =
      some (compute_hash
        (normalize_text (some (pyOrS t s.doc.title ++ '\n' :: s.doc.url)))) ∧
    ((seed_if_missing now et t s).2).doc.current_hash =
      some (compute_hash
        (normalize_text (some (pyOrS t s.doc.title ++ '\n' :: s.doc.url)))) := by
  have hbasis : basisOf s.doc.title s.doc.url et t =
      normalize_text (some (pyOrS t s.doc.title ++ '\n' :: s.doc.url)) := by
    unfold basisOf
    rw [hempty]
    rfl
  refine ⟨hbasis, ?_, ?_⟩
  · unfold record_version
    rw [if_pos hfalsy, hbasis]
  · unfold seed_if_missing
    rw [if_neg (by simp [hfalsy]), if_neg (by simp [hnov]), hbasis]

theorem c9_basis_fallback_witness :
    basisOf "T".toList "http://x/".toList (some "  \r\n ".toList) none =
      normalize_text (some (pyOrS none "T".toList ++ '\n' :: "http://x/".toList)) ∧
    ((record_version 4 (some "  \r\n ".toList) none
        (freshState "T".toList "http://x/".toList)).2).doc.current_hash =
      some (compute_hash (normalize_text
        (some (pyOrS none "T".toList ++ '\n' :: "http://x/".toList)))) ∧
    ((seed_if_missing 4 (some "  \r\n ".toList) none
        (freshState "T".toList "http://x/".toList)).2).doc.current_hash =
      some (compute_hash (normalize_text
        (some (pyOrS none "T".toList ++ '\n' :: "http://x/".toList)))) :=
  c9_basis_fallback (freshState "T".toList "http://x/".toList) 4
    (some "  \r\n ".toList) none (by decide) rfl rfl

-- ---------------------------------------------------------------------
-- C4: hash determinism under line-ending style and outer whitespace
-- ---------------------------------------------------------------------

/-- Every character of the list is whitespace. -/
def isSpaceAll (l : Str) : Prop := ∀ c ∈ l, isPySpace c = true

instance (l : Str) : Decidable (isSpaceAll l) := List.decidableBAll _ l

theorem replaceCR_crlf (l : Str) :
    replaceCR ('\r' :: '\n' :: l) = '\n' :: replaceCR l := rfl

theorem replaceCR_cr (l : Str) (h : l.head? ≠ some '\n') :
    replaceCR ('\r' :: l) = '\n' :: replaceCR l := by
  cases l with
  | nil => rfl
  | cons d l' =>
    have hd : d ≠ '\n' := by
      intro e
      exact h (by rw [e]; rfl)
    simp [replaceCR, hd]

theorem replaceCR_cons_ne (c : Char) (l : Str) (h : c ≠ '\r') :
    replaceCR (c :: l) = c :: replaceCR l := by
  cases l with
  | nil => simp [replaceCR, h]
  | cons d l' => simp [replaceCR, h]

theorem replaceCR_isSpaceAll (l : Str) (h : isSpaceAll l) :
    isSpaceAll (replaceCR l) := by
  induction l using replaceCR.induct with
  | case1 => exact h
  | case2 rest ih =>
    rw [replaceCR_crlf]
    intro c hc
    simp only [List.mem_cons] at hc
    rcases hc with rfl | hc
    · rfl
    · exact ih (fun d hd => h d (by simp [hd])) c hc
  | case3 rest hg ih =>
    rw [replaceCR_cr]
    · intro c hc
      simp only [List.mem_cons] at hc
      rcases hc with rfl | hc
      · rfl
      · exact ih (fun d hd => h d (by simp [hd])) c hc
    · intro he
      cases rest with
      | nil => simp at he
      | cons d r' =>
        simp only [List.head?_cons, Option.some.injEq] at he
        exact hg r' (by rw [he])
  | case4 c rest hg hne ih =>
    rw [replaceCR_cons_ne c rest (fun e => hne e)]
    intro d hd
    simp only [List.mem_cons] at hd
    rcases hd with rfl | hd
    · exact h d (by simp)
    · exact ih (fun d' hd' => h d' (by simp [hd'])) d hd

theorem replaceCR_append (x y : Str) (hy : y.head? ≠ some '\n') :
    replaceCR (x ++ y) = replaceCR x ++ replaceCR y := by
  induction x using replaceCR.induct with
  | case1 => simp [replaceCR]
  | case2 rest ih =>
    rw [List.cons_append, List.cons_append, replaceCR_crlf, replaceCR_crlf, ih,
        List.cons_append]
  | case3 rest hg ih =>
    have hrest : (rest ++ y).head? ≠ some '\n' := by
      cases rest with
      | nil => simpa using hy
      | cons d r' =>
        have hdn : d ≠ '\n' := fun e => hg r' (by rw [e])
        simp [hdn]
    have hrest2 : rest.head? ≠ some '\n' := by
      cases rest with
      | nil => simp
      | cons d r' =>
        have hdn : d ≠ '\n' := fun e => hg r' (by rw [e])
        simp [hdn]
    rw [List.cons_append, replaceCR_cr _ hrest, replaceCR_cr _ hrest2, ih,
        List.cons_append]
  | case4 c rest hg hne ih =>
    rw [List.cons_append, replaceCR_cons_ne c _ (fun e => hne e),
        replaceCR_cons_ne c _ (fun e => hne e), ih, List.cons_append]

theorem rStrip_nil_iff (l : Str) : rStrip l = [] ↔ isSpaceAll l := by
  unfold rStrip
  rw [List.reverse_eq_nil_iff, List.dropWhile_eq_nil_iff]
  constructor
  · intro h c hc
    exact h c (by simpa using hc)
  · intro h c hc
    exact h c (by simpa using hc)

theorem lStrip_space_nil (l : Str) (h : isSpaceAll l) : lStrip l = [] := by
  unfold lStrip
  rw [List.dropWhile_eq_nil_iff]
  exact h

theorem rStrip_space_nil (l : Str) (h : isSpaceAll l) : rStrip l = [] :=
  (rStrip_nil_iff l).mpr h

theorem pyStrip_space_nil (l : Str) (h : isSpaceAll l) : pyStrip l = [] := by
  unfold pyStrip
  rw [rStrip_space_nil l h]
  rfl

theorem rStrip_cons (c : Char) (l : Str) :
    rStrip (c :: l) =
      if rStrip l = [] then (if isPySpace c then [] else [c])
      else c :: rStrip l := by
  unfold rStrip
  rw [show (c :: l).reverse = l.reverse ++ [c] by simp, List.dropWhile_append]
  by_cases hr : (l.reverse.dropWhile isPySpace) = []
  · rw [if_pos (by simp [hr]), if_pos (by simp [hr])]
    by_cases hc : isPySpace c
    · simp [List.dropWhile_cons, hc]
    · simp [List.dropWhile_cons, hc]
  · rw [if_neg (by simpa using hr), if_neg (by simpa using hr)]
    simp

theorem lStrip_cons (c : Char) (l : Str) :
    lStrip (c :: l) = if isPySpace c then lStrip l else c :: l := by
  unfold lStrip
  rw [List.dropWhile_cons]

theorem strip_comm (l : Str) : lStrip (rStrip l) = rStrip (lStrip l) := by
  induction l with
  | nil => rfl
  | cons c l' ih =>
    rw [rStrip_cons, lStrip_cons]
    by_cases hr : rStrip l' = []
    · rw [if_pos hr]
      have hsp : isSpaceAll l' := (rStrip_nil_iff l').mp hr
      by_cases hc : isPySpace c
      · rw [if_pos hc, if_pos hc, lStrip_space_nil l' hsp]
        rfl
      · rw [if_neg hc, if_neg hc, rStrip_cons, if_pos hr, if_neg hc,
            lStrip_cons, if_neg hc]
    · rw [if_neg hr]
      by_cases hc : isPySpace c
      · rw [if_pos hc, lStrip_cons, if_pos hc, ih]
      · rw [if_neg hc, lStrip_cons, if_neg hc, rStrip_cons, if_neg hr]

theorem rStrip_replaceCR_space (x w : Str) (hw : isSpaceAll w) :
    rStrip (replaceCR (x ++ w)) = rStrip (replaceCR x) := by
  induction x using replaceCR.induct with
  | case1 =>
    rw [List.nil_append]
    exact rStrip_space_nil _ (replaceCR_isSpaceAll w hw)
  | case2 rest ih =>
    rw [List.cons_append, List.cons_append, replaceCR_crlf, replaceCR_crlf,
        rStrip_cons, rStrip_cons, ih]
  | case3 rest hg ih =>
    cases rest with
    | nil =>
      cases w with
      | nil => rfl
      | cons e w' =>
        have hsp : isSpaceAll ('\n' :: replaceCR w') := by
          intro c hc
          simp only [List.mem_cons] at hc
          rcases hc with rfl | hc
          · rfl
          · exact replaceCR_isSpaceAll w'
              (fun d hd => hw d (by simp [hd])) c hc
        by_cases he : e = '\n'
        · subst he
          rw [List.cons_append, List.nil_append, replaceCR_crlf,
              rStrip_space_nil _ hsp]
          rw [show replaceCR ['\r'] = ['\n'] from rfl]
          exact (rStrip_space_nil ['\n'] (by intro c hc; simp at hc; subst hc; decide)).symm
        · have hsp2 : isSpaceAll ('\n' :: replaceCR (e :: w')) := by
            intro c hc
            simp only [List.mem_cons] at hc
            rcases hc with rfl | hc
            · rfl
            · exact replaceCR_isSpaceAll (e :: w') hw c hc
          rw [List.cons_append, List.nil_append,
              replaceCR_cr (e :: w') (by simp [he]),
              rStrip_space_nil _ hsp2]
          rw [show replaceCR ['\r'] = ['\n'] from rfl]
          exact (rStrip_space_nil ['\n'] (by intro c hc; simp at hc; subst hc; decide)).symm
    | cons d r' =>
      have hd : d ≠ '\n' := fun e => hg r' (by rw [e])
      rw [List.cons_append, replaceCR_cr _ (by simp [hd]),
          replaceCR_cr _ (by simp [hd]), rStrip_cons, rStrip_cons, ih]
  | case4 c rest hg hne ih =>
    rw [List.cons_append, replaceCR_cons_ne c _ (fun e => hne e),
        replaceCR_cons_ne c _ (fun e => hne e), rStrip_cons, rStrip_cons, ih]

theorem lStrip_replaceCR_space (w x : Str) (hw : isSpaceAll w) :
    lStrip (replaceCR (w ++ x)) = lStrip (replaceCR x) := by
  induction w using replaceCR.induct with
  | case1 => rw [List.nil_append]
  | case2 rest ih =>
    rw [List.cons_append, List.cons_append, replaceCR_crlf, lStrip_cons,
        if_pos (show isPySpace '\n' = true by decide)]
    exact ih (fun d hd => hw d (by simp [hd]))
  | case3 rest hg ih =>
    cases rest with
    | nil =>
      cases x with
      | nil => rfl
      | cons e x' =>
        by_cases he : e = '\n'
        · subst he
          rw [List.cons_append, List.nil_append, replaceCR_crlf, lStrip_cons,
              if_pos (show isPySpace '\n' = true by decide),
              replaceCR_cons_ne '\n' x' (by decide), lStrip_cons,
              if_pos (show isPySpace '\n' = true by decide)]
        · rw [List.cons_append, List.nil_append,
              replaceCR_cr (e :: x') (by simp [he]), lStrip_cons,
              if_pos (show isPySpace '\n' = true by decide)]
    | cons d r' =>
      have hd : d ≠ '\n' := fun e => hg r' (by rw [e])
      rw [List.cons_append, replaceCR_cr _ (by simp [hd]), lStrip_cons,
          if_pos (show isPySpace '\n' = true by decide)]
      exact ih (fun d' hd' => hw d' (by simp [hd']))
  | case4 c rest hg hne ih =>
    rw [List.cons_append, replaceCR_cons_ne c _ (fun e => hne e), lStrip_cons,
        if_pos (hw c (by simp))]
    exact ih (fun d hd => hw d (by simp [hd]))

theorem normalize_append_space (x w : Str) (hw : isSpaceAll w) :
    normalize_text (some (x ++ w)) = normalize_text (some x) := by
  show pyStrip (replaceCR (x ++ w)) = pyStrip (replaceCR x)
  unfold pyStrip
  rw [rStrip_replaceCR_space x w hw]

theorem normalize_space_append (w x : Str) (hw : isSpaceAll w) :
    normalize_text (some (w ++ x)) = normalize_text (some x) := by
  show pyStrip (replaceCR (w ++ x)) = pyStrip (replaceCR x)
  unfold pyStrip
  rw [strip_comm, strip_comm, lStrip_replaceCR_space w x hw]

theorem replaceCR_noCR (l : Str) (h : ∀ c ∈ l, c ≠ '\r') : replaceCR l = l := by
  induction l with
  | nil => rfl
  | cons c l' ih =>
    rw [replaceCR_cons_ne c l' (h c (by simp)), ih (fun d hd => h d (by simp [hd]))]

theorem replaceCR_noCR_append (l y : Str) (h : ∀ c ∈ l, c ≠ '\r') :
    replaceCR (l ++ y) = l ++ replaceCR y := by
  induction l with
  | nil => rfl
  | cons c l' ih =>
    rw [List.cons_append, replaceCR_cons_ne c _ (h c (by simp)),
        ih (fun d hd => h d (by simp [hd])), List.cons_append]

/-- The character substitution performed on a text without LF. -/
def crMap (c : Char) : Char := if c = '\r' then '\n' else c

theorem replaceCR_noLF (l : Str) (h : ∀ c ∈ l, c ≠ '\n') :
    replaceCR l = l.map crMap := by
  induction l using replaceCR.induct with
  | case1 => rfl
  | case2 rest ih => exact absurd (h '\n' (by simp)) (by simp)
  | case3 rest hg ih =>
    have hrest : rest.head? ≠ some '\n' := by
      cases rest with
      | nil => simp
      | cons d r' =>
        have : d ≠ '\n' := h d (by simp)
        simp [this]
    rw [replaceCR_cr rest hrest, ih (fun d hd => h d (by simp [hd]))]
    simp [crMap]
  | case4 c rest hg hne ih =>
    have hc : c ≠ '\r' := fun e => hne e
    rw [replaceCR_cons_ne c rest hc, ih (fun d hd => h d (by simp [hd]))]
    simp [crMap, hc]

/-- `sep.join(lines)`: the text whose logical lines are `lines`,
separated by the line-ending style `sep`. -/
def joinLines (sep : Str) : List Str → Str
  | [] => []
  | [l] => l
  | l :: ls => l ++ sep ++ joinLines sep ls

theorem map_joinLines (f : Char → Char) (sep : Str) (ls : List Str) :
    (joinLines sep ls).map f = joinLines (sep.map f) (ls.map (List.map f)) := by
  induction ls with
  | nil => rfl
  | cons l ls' ih =>
    cases ls' with
    | nil => rfl
    | cons l2 ls'' =>
      show (l ++ sep ++ joinLines sep (l2 :: ls'')).map f = _
      rw [List.map_append, List.map_append, ih]
      rfl

theorem mem_joinLines (sep : Str) (ls : List Str) (c : Char)
    (hc : c ∈ joinLines sep ls) : c ∈ sep ∨ ∃ l ∈ ls, c ∈ l := by
  induction ls with
  | nil => simp [joinLines] at hc
  | cons l ls' ih =>
    cases ls' with
    | nil =>
      right
      exact ⟨l, by simp, hc⟩
    | cons l2 ls'' =>
      have hc' : c ∈ l ++ sep ++ joinLines sep (l2 :: ls'') := hc
      rw [List.append_assoc, List.mem_append, List.mem_append] at hc'
      rcases hc' with hmem | hmem | hmem
      · exact Or.inr ⟨l, by simp, hmem⟩
      · exact Or.inl hmem
      · rcases ih hmem with hs | ⟨l', hl', hcl⟩
        · exact Or.inl hs
        · exact Or.inr ⟨l', by simp [hl'], hcl⟩

/-- Lines free of CR and LF (the logical lines of a text). -/
def goodLines (ls : List Str) : Prop :=
  ∀ l ∈ ls, ∀ c ∈ l, c ≠ '\r' ∧ c ≠ '\n'

instance (ls : List Str) : Decidable (goodLines ls) := List.decidableBAll _ ls

theorem replaceCR_joinLines_lf (ls : List Str) (hl : goodLines ls) :
    replaceCR (joinLines ['\n'] ls) = joinLines ['\n'] ls := by
  apply replaceCR_noCR
  intro c hc
  rcases mem_joinLines _ _ _ hc with hs | ⟨l, hli, hcl⟩
  · simp at hs
    subst hs
    decide
  · exact (hl l hli c hcl).1

theorem replaceCR_joinLines_crlf (ls : List Str) (hl : goodLines ls) :
    replaceCR (joinLines ['\r', '\n'] ls) = joinLines ['\n'] ls := by
  induction ls with
  | nil => rfl
  | cons l ls' ih =>
    cases ls' with
    | nil => exact replaceCR_noCR l (fun c hc => (hl l (by simp) c hc).1)
    | cons l2 ls'' =>
      show replaceCR (l ++ ['\r', '\n'] ++ joinLines ['\r', '\n'] (l2 :: ls'')) =
        l ++ ['\n'] ++ joinLines ['\n'] (l2 :: ls'')
      rw [List.append_assoc,
          replaceCR_noCR_append l _ (fun c hc => (hl l (by simp) c hc).1)]
      rw [show (['\r', '\n'] ++ joinLines ['\r', '\n'] (l2 :: ls'') : Str) =
            '\r' :: '\n' :: joinLines ['\r', '\n'] (l2 :: ls'') from rfl,
          replaceCR_crlf, ih (fun l' hl' => hl l' (by simp [hl']))]
      simp

theorem replaceCR_joinLines_cr (ls : List Str) (hl : goodLines ls) :
    replaceCR (joinLines ['\r'] ls) = joinLines ['\n'] ls := by
  have hnoLF : ∀ c ∈ joinLines ['\r'] ls, c ≠ '\n' := by
    intro c hc
    rcases mem_joinLines _ _ _ hc with hs | ⟨l, hli, hcl⟩
    · simp at hs
      subst hs
      decide
    · exact (hl l hli c hcl).2
  rw [replaceCR_noLF _ hnoLF, map_joinLines]
  have hmap : ls.map (List.map crMap) = ls := by
    have : ∀ l ∈ ls, l.map crMap = l := by
      intro l hli
      have : ∀ c ∈ l, crMap c = c := by
        intro c hc
        have := (hl l hli c hc).1
        simp [crMap, this]
      rw [List.map_congr_left this]
      exact l.map_id'
    calc ls.map (List.map crMap) = ls.map (fun l => l) :=
          List.map_congr_left this
    _ = ls := ls.map_id'
  rw [hmap]
  rfl

/-- The three line-ending styles. -/
def eolSeps : List Str := [['\n'], ['\r'], ['\r', '\n']]

/-- C4: two texts that differ only in line-ending style and in
leading/trailing whitespace of the whole text normalize to identical
strings, and therefore `compute_hash` returns identical values. -/
theorem c4_hash_determinism (sep : Str) (hsep : sep ∈ eolSeps)
    (lines : List Str) (hl : goodLines lines)
    (ws1 ws2 : Str) (h1 : isSpaceAll ws1) (h2 : isSpaceAll ws2) :
    normalize_text (some (ws1 ++ joinLines sep lines ++ ws2)) =
      normalize_text (some (joinLines ['\n'] lines)) ∧
    compute_hash (normalize_text (some (ws1 ++ joinLines sep lines ++ ws2))) =
      compute_hash (normalize_text (some (joinLines ['\n'] lines))) := by
  have hmid : normalize_text (some (joinLines sep lines)) =
      normalize_text (some (joinLines ['\n'] lines)) := by
    show pyStrip (replaceCR (joinLines sep lines)) =
      pyStrip (replaceCR (joinLines ['\n'] lines))
    rcases (show sep = ['\n'] ∨ sep = ['\r'] ∨ sep = ['\r', '\n'] by
        simpa [eolSeps] using hsep) with h | h | h
    · rw [h]
    · rw [h, replaceCR_joinLines_cr lines hl, replaceCR_joinLines_lf lines hl]
    · rw [h, replaceCR_joinLines_crlf lines hl, replaceCR_joinLines_lf lines hl]
  have hfull : normalize_text (some (ws1 ++ joinLines sep lines ++ ws2)) =
      normalize_text (some (joinLines ['\n'] lines)) := by
    rw [List.append_assoc, normalize_space_append ws1 _ h1,
        normalize_append_space _ ws2 h2, hmid]
  exact ⟨hfull, by rw [hfull]⟩

theorem c4_hash_determinism_witness :
    normalize_text (some (" ".toList ++
        joinLines ['\r', '\n'] ["ab".toList, "c".toList] ++ "\n\t".toList)) =
      normalize_text (some (joinLines ['\n'] ["ab".toList, "c".toList])) ∧
    compute_hash (normalize_text (some (" ".toList ++
        joinLines ['\r', '\n'] ["ab".toList, "c".toList] ++ "\n\t".toList))) =
      compute_hash (normalize_text
        (some (joinLines ['\n'] ["ab".toList, "c".toList]))) :=
  c4_hash_determinism ['\r', '\n'] (by decide)
    ["ab".toList, "c".toList] (by decide)
    " ".toList "\n\t".toList (by decide) (by decide)

-- ---------------------------------------------------------------------
-- URL-keyed document upsert (app/db/crud.py, create_or_update_doc)
-- ---------------------------------------------------------------------

/-- JSON metadata dict, modelled as association pairs; Python
truthiness of a dict is non-emptiness. -/
abbrev MetaD := List (Str × Str)

/-- A `Document` row as touched by `create_or_update_doc`. -/
structure DocRow where
  source_id : Nat
  title : Str
  url : Str
  published_at : Option Nat
  text : Option Str
  meta : Option MetaD
  jurisdiction : Option Str
deriving DecidableEq, Repr

/-- Python truthiness of `Optional[dict]`: `None` and `{}` are falsy. -/
def truthyOM : Option MetaD → Bool
  | none => false
  | some m => decide (m ≠ [])

/-- Replace the first element satisfying the predicate. -/
def updateFirst (p : α → Bool) (f : α → α) : List α → List α
  | [] => []
  | x :: xs => if p x then f x :: xs else x :: updateFirst p f xs

/-- The field updates applied to an existing row (each guarded exactly
as in the source: title/published_at/jurisdiction refresh on change,
text/meta only fill in when currently empty). -/
def applyDocUpdates (title : Str) (published_at : Option Nat)
    (text : Option Str) (metadata : Option MetaD)
    (jurisdiction : Option Str) (ex : DocRow) : DocRow :=
  { ex with
    title := if title ≠ [] ∧ ex.title ≠ title then title else ex.title
    published_at :=
      if published_at.isSome ∧ ex.published_at ≠ published_at then published_at
      else ex.published_at
    text := if truthyOS text ∧ truthyOS ex.text = false then text else ex.text
    meta :=
      if truthyOM metadata ∧ truthyOM ex.meta = false then metadata else ex.meta
    jurisdiction :=
      if truthyOS jurisdiction ∧ ex.jurisdiction ≠ jurisdiction then jurisdiction
      else ex.jurisdiction }

/-- The url-key predicate used by the upsert lookup. -/
def byUrl (url : Str) (d : DocRow) : Bool := decide (d.url = url)

/-- `crud.create_or_update_doc`: look up the document by its unique
url; update the found row in place, or insert a fresh row.  (The
`scalar_one_or_none` lookup presumes at most one row per url.) -/
def create_or_update_doc (db : List DocRow) (source_id : Nat) (title : Str)
    (url : Str) (published_at : Option Nat) (text : Option Str)
    (metadata : Option MetaD) (jurisdiction : Option Str) : List DocRow :=
  match db.find? (byUrl url) with
  | some _ =>
      updateFirst (byUrl url)
        (applyDocUpdates title published_at text metadata jurisdiction) db
  | none =>
      db ++ [⟨source_id, (if title = [] then "(untitled)".toList else title),
             url, published_at, text, metadata, jurisdiction⟩]

theorem length_updateFirst (p : α → Bool) (f : α → α) (l : List α) :
    (updateFirst p f l).length = l.length := by
  induction l with
  | nil => rfl
  | cons x xs ih =>
    unfold updateFirst
    by_cases hx : p x
    · rw [if_pos hx]
      rfl
    · rw [if_neg hx]
      simpa using ih

theorem find?_updateFirst (p : α → Bool) (f : α → α) (l : List α)
    (hf : ∀ x, p x = true → p (f x) = true) :
    (updateFirst p f l).find? p = (l.find? p).map f := by
  induction l with
  | nil => rfl
  | cons x xs ih =>
    unfold updateFirst
    by_cases hx : p x
    · rw [if_pos hx, List.find?_cons, List.find?_cons, hx, hf x hx]
      rfl
    · have hx' : p x = false := by
        revert hx; cases p x <;> simp
      rw [if_neg hx, List.find?_cons, List.find?_cons, hx']
      exact ih

theorem updateFirst_cons_pos (p : α → Bool) (f : α → α) (x : α) (xs : List α)
    (h : p x = true) : updateFirst p f (x :: xs) = f x :: xs := by
  simp only [updateFirst]
  rw [if_pos h]

theorem updateFirst_cons_neg (p : α → Bool) (f : α → α) (x : α) (xs : List α)
    (h : p x = false) : updateFirst p f (x :: xs) = x :: updateFirst p f xs := by
  simp only [updateFirst]
  rw [if_neg (by simp [h])]

theorem filter_updateFirst (p : α → Bool) (f : α → α) (l : List α)
    (hf : ∀ x, p (f x) = p x) :
    (updateFirst p f l).filter p = updateFirst p f (l.filter p) := by
  induction l with
  | nil => rfl
  | cons x xs ih =>
    by_cases hx : p x
    · rw [updateFirst_cons_pos p f x xs hx, List.filter_cons, List.filter_cons,
          hx, hf x, hx, if_pos rfl, if_pos rfl,
          updateFirst_cons_pos p f x (xs.filter p) hx]
    · have hx' : p x = false := by
        revert hx; cases p x <;> simp
      rw [updateFirst_cons_neg p f x xs hx', List.filter_cons, List.filter_cons,
          hx', if_neg (by simp), if_neg (by simp)]
      exact ih

theorem find?_of_filter_cons (p : α → Bool) (l : List α) (e : α) (rest : List α)
    (h : l.filter p = e :: rest) : l.find? p = some e := by
  induction l with
  | nil => simp at h
  | cons x xs ih =>
    rw [List.filter_cons] at h
    by_cases hx : p x
    · rw [if_pos hx] at h
      rw [List.find?_cons, hx]
      injection h with h1 _
      rw [h1]
    · have hx' : p x = false := by
        revert hx; cases p x <;> simp
      rw [if_neg hx] at h
      rw [List.find?_cons, hx']
      exact ih h

theorem find?_eq_head?_filter (p : α → Bool) (l : List α) :
    l.find? p = (l.filter p).head? := by
  induction l with
  | nil => rfl
  | cons x xs ih =>
    by_cases hx : p x
    · rw [List.find?_cons, hx, List.filter_cons, if_pos hx]
      rfl
    · have hx' : p x = false := by
        revert hx; cases p x <;> simp
      rw [List.find?_cons, hx', List.filter_cons, if_neg (by simp [hx'])]
      exact ih

theorem byUrl_applyDocUpdates (url t : Str) (pa : Option Nat) (tx : Option Str)
    (m : Option MetaD) (j : Option Str) (ex : DocRow) :
    byUrl url (applyDocUpdates t pa tx m j ex) = byUrl url ex := rfl

theorem title_applyDocUpdates (t : Str) (pa : Option Nat) (tx : Option Str)
    (m : Option MetaD) (j : Option Str) (ex : DocRow) (ht : t ≠ []) :
    (applyDocUpdates t pa tx m j ex).title = t := by
  show (if t ≠ [] ∧ ex.title ≠ t then t else ex.title) = t
  by_cases he : ex.title = t
  · rw [if_neg (by simp [he])]
    exact he
  · rw [if_pos ⟨ht, he⟩]

/-- C7: the upsert is URL-keyed.  Starting from a database with at most
one row for `url` (the uniqueness the schema enforces), two successive
upserts of the same url with different non-empty titles leave exactly
one row for that url, whose title is the second title, and the second
call inserts no row at all. -/
theorem c7_url_keyed_dedup
    (db : List DocRow) (url title1 title2 : Str)
    (sid1 sid2 : Nat) (p1 p2 : Option Nat) (t1 t2 : Option Str)
    (m1 m2 : Option MetaD) (j1 j2 : Option Str)
    (hu : (db.filter (byUrl url)).length ≤ 1)
    (ht1 : title1 ≠ []) (ht2 : title2 ≠ []) (hne : title1 ≠ title2) :
    (create_or_update_doc (create_or_update_doc db sid1 title1 url p1 t1 m1 j1)
        sid2 title2 url p2 t2 m2 j2).length =
      (create_or_update_doc db sid1 title1 url p1 t1 m1 j1).length ∧
    ((create_or_update_doc (create_or_update_doc db sid1 title1 url p1 t1 m1 j1)
        sid2 title2 url p2 t2 m2 j2).filter (byUrl url)).length = 1 ∧
    ((create_or_update_doc (create_or_update_doc db sid1 title1 url p1 t1 m1 j1)
        sid2 title2 url p2 t2 m2 j2).find? (byUrl url)).map
      (fun d => d.title) = some title2 := by
  have hordmap : ∀ x, byUrl url
      (applyDocUpdates title2 p2 t2 m2 j2 x) = byUrl url x := fun x => rfl
  have hmono : ∀ x, byUrl url x = true →
      byUrl url (applyDocUpdates title2 p2 t2 m2 j2 x) = true :=
    fun x h => by rw [hordmap]; exact h
  cases hfind : db.find? (byUrl url) with
  | none =>
    have hdb1 : create_or_update_doc db sid1 title1 url p1 t1 m1 j1 =
        db ++ [⟨sid1, (if title1 = [] then "(untitled)".toList else title1),
               url, p1, t1, m1, j1⟩] := by
      unfold create_or_update_doc
      rw [hfind]
    have hfilterdb : db.filter (byUrl url) = [] := by
      rw [List.filter_eq_nil_iff]
      intro a ha hpa
      rw [List.find?_eq_none] at hfind
      exact hfind a ha hpa
    have hrow : byUrl url
        (⟨sid1, (if title1 = [] then "(untitled)".toList else title1),
          url, p1, t1, m1, j1⟩ : DocRow) = true := by
      simp [byUrl]
    have hfilter1 : (db ++ [(⟨sid1,
        (if title1 = [] then "(untitled)".toList else title1),
        url, p1, t1, m1, j1⟩ : DocRow)]).filter (byUrl url) =
        [⟨sid1, (if title1 = [] then "(untitled)".toList else title1),
          url, p1, t1, m1, j1⟩] := by
      rw [List.filter_append, hfilterdb, List.nil_append, List.filter_cons,
          if_pos hrow]
      rfl
    have hfind1 : (db ++ [(⟨sid1,
        (if title1 = [] then "(untitled)".toList else title1),
        url, p1, t1, m1, j1⟩ : DocRow)]).find? (byUrl url) =
        some ⟨sid1, (if title1 = [] then "(untitled)".toList else title1),
          url, p1, t1, m1, j1⟩ := by
      rw [find?_eq_head?_filter, hfilter1]
      rfl
    have hdb2 : create_or_update_doc
        (create_or_update_doc db sid1 title1 url p1 t1 m1 j1)
        sid2 title2 url p2 t2 m2 j2 =
        updateFirst (byUrl url)
          (applyDocUpdates title2 p2 t2 m2 j2)
          (db ++ [⟨sid1, (if title1 = [] then "(untitled)".toList else title1),
                  url, p1, t1, m1, j1⟩]) := by
      rw [hdb1]
      unfold create_or_update_doc
      rw [hfind1]
    refine ⟨?_, ?_, ?_⟩
    · rw [hdb2, hdb1, length_updateFirst]
    · rw [hdb2, filter_updateFirst _ _ _ hordmap, hfilter1,
          updateFirst_cons_pos _ _ _ _ hrow]
      rfl
    · rw [hdb2, find?_updateFirst _ _ _ hmono, hfind1, Option.map_some']
      show some (applyDocUpdates title2 p2 t2 m2 j2 _).title = some title2
      rw [title_applyDocUpdates _ _ _ _ _ _ ht2]
  | some ex =>
    have hexP : byUrl url ex = true := List.find?_some hfind
    have hfilterdb : db.filter (byUrl url) = [ex] := by
      have h1 : (db.filter (byUrl url)).head? = some ex := by
        rw [← find?_eq_head?_filter]
        exact hfind
      cases hf : db.filter (byUrl url) with
      | nil =>
        rw [hf] at h1
        simp at h1
      | cons e rest =>
        rw [hf] at h1
        injection h1 with h1
        subst h1
        cases rest with
        | nil => rfl
        | cons r rs =>
          rw [hf] at hu
          simp at hu
    have hdb1 : create_or_update_doc db sid1 title1 url p1 t1 m1 j1 =
        updateFirst (byUrl url) (applyDocUpdates title1 p1 t1 m1 j1) db := by
      unfold create_or_update_doc
      rw [hfind]
    have h1map : ∀ x, byUrl url
        (applyDocUpdates title1 p1 t1 m1 j1 x) = byUrl url x := fun x => rfl
    have h1mono : ∀ x, byUrl url x = true →
        byUrl url (applyDocUpdates title1 p1 t1 m1 j1 x) = true :=
      fun x h => by rw [h1map]; exact h
    have hfilter1 : (updateFirst (byUrl url)
        (applyDocUpdates title1 p1 t1 m1 j1) db).filter (byUrl url) =
        [applyDocUpdates title1 p1 t1 m1 j1 ex] := by
      rw [filter_updateFirst _ _ _ h1map, hfilterdb,
          updateFirst_cons_pos _ _ _ _ hexP]
    have hfind1 : (updateFirst (byUrl url)
        (applyDocUpdates title1 p1 t1 m1 j1) db).find? (byUrl url) =
        some (applyDocUpdates title1 p1 t1 m1 j1 ex) := by
      rw [find?_eq_head?_filter, hfilter1]
      rfl
    have hdb2 : create_or_update_doc
        (create_or_update_doc db sid1 title1 url p1 t1 m1 j1)
        sid2 title2 url p2 t2 m2 j2 =
        updateFirst (byUrl url) (applyDocUpdates title2 p2 t2 m2 j2)
          (updateFirst (byUrl url) (applyDocUpdates title1 p1 t1 m1 j1) db) := by
      rw [hdb1]
      unfold create_or_update_doc
      rw [hfind1]
    refine ⟨?_, ?_, ?_⟩
    · rw [hdb2, hdb1, length_updateFirst]
    · rw [hdb2, filter_updateFirst _ _ _ hordmap, hfilter1,
          updateFirst_cons_pos _ _ _ _ (by rw [h1map]; exact hexP)]
      rfl
    · rw [hdb2, find?_updateFirst _ _ _ hmono, hfind1, Option.map_some']
      show some (applyDocUpdates title2 p2 t2 m2 j2 _).title = some title2
      rw [title_applyDocUpdates _ _ _ _ _ _ ht2]

theorem c7_url_keyed_dedup_witness :
    (create_or_update_doc (create_or_update_doc [] 1 "A".toList
        "http://x/".toList none none none none)
        1 "B".toList "http://x/".toList none none none none).length =
      (create_or_update_doc [] 1 "A".toList "http://x/".toList
        none none none none).length ∧
    ((create_or_update_doc (create_or_update_doc [] 1 "A".toList
        "http://x/".toList none none none none)
        1 "B".toList "http://x/".toList none none none none).filter
      (byUrl "http://x/".toList)).length = 1 ∧
    ((create_or_update_doc (create_or_update_doc [] 1 "A".toList
        "http://x/".toList none none none none)
        1 "B".toList "http://x/".toList none none none none).find?
      (byUrl "http://x/".toList)).map (fun d => d.title) =
      some "B".toList :=
  c7_url_keyed_dedup [] "http://x/".toList "A".toList "B".toList 1 1
    none none none none none none none none (by simp)
    (by decide) (by decide) (by decide)

/-- C10: once a document's text (resp. metadata) field is non-empty,
no upsert call changes it — not even one supplying a different
non-empty value; a new value is stored only when the existing field is
empty. -/
theorem c10_text_meta_frozen
    (db : List DocRow) (url : Str) (ex : DocRow)
    (hfind : db.find? (byUrl url) = some ex)
    (sid : Nat) (title : Str) (pub : Option Nat) (text : Option Str)
    (meta : Option MetaD) (jur : Option Str) :
    ∃ ex', (create_or_update_doc db sid title url pub text meta jur).find?
        (byUrl url) = some ex' ∧
      (truthyOS ex.text = true → ex'.text = ex.text) ∧
      (truthyOS ex.text = false → truthyOS text = true → ex'.text = text) ∧
      (truthyOM ex.meta = true → ex'.meta = ex.meta) ∧
      (truthyOM ex.meta = false → truthyOM meta = true → ex'.meta = meta) := by
  have hdb' : create_or_update_doc db sid title url pub text meta jur =
      updateFirst (byUrl url) (applyDocUpdates title pub text meta jur) db := by
    unfold create_or_update_doc
    rw [hfind]
  refine ⟨applyDocUpdates title pub text meta jur ex, ?_, ?_, ?_, ?_, ?_⟩
  · rw [hdb', find?_updateFirst (byUrl url)
        (applyDocUpdates title pub text meta jur) db (fun x h => h),
        hfind, Option.map_some']
  · intro h
    show (if truthyOS text ∧ truthyOS ex.text = false then text else ex.text) =
      ex.text
    rw [if_neg (by simp [h])]
  · intro h1 h2
    show (if truthyOS text ∧ truthyOS ex.text = false then text else ex.text) =
      text
    rw [if_pos ⟨h2, h1⟩]
  · intro h
    show (if truthyOM meta ∧ truthyOM ex.meta = false then meta else ex.meta) =
      ex.meta
    rw [if_neg (by simp [h])]
  · intro h1 h2
    show (if truthyOM meta ∧ truthyOM ex.meta = false then meta else ex.meta) =
      meta
    rw [if_pos ⟨h2, h1⟩]

/-- Concrete row for the C10 witness: text and metadata already set. -/
def c10row : DocRow :=
  ⟨7, "T".toList, "http://x/".toList, none, some "orig".toList,
   some [("k".toList, "v".toList)], none⟩

theorem c10_text_meta_frozen_witness :
    ∃ ex', (create_or_update_doc [c10row] 7 "T".toList "http://x/".toList
        none (some "new".toList) (some [("k2".toList, "v2".toList)])
        none).find? (byUrl "http://x/".toList) = some ex' ∧
      (truthyOS c10row.text = true → ex'.text = c10row.text) ∧
      (truthyOS c10row.text = false → truthyOS (some "new".toList) = true →
        ex'.text = some "new".toList) ∧
      (truthyOM c10row.meta = true → ex'.meta = c10row.meta) ∧
      (truthyOM c10row.meta = false →
        truthyOM (some [("k2".toList, "v2".toList)]) = true →
        ex'.meta = some [("k2".toList, "v2".toList)]) :=
  c10_text_meta_frozen [c10row] "http://x/".toList c10row (by decide)
    7 "T".toList none (some "new".toList) (some [("k2".toList, "v2".toList)])
    none

-- ---------------------------------------------------------------------
-- Batch orchestrator (app/services/ingest.py, run_ingest_once)
-- ---------------------------------------------------------------------

/-- A `Source` row as used by the orchestrator. -/
structure Src where
  name : Str
  type : Str
  url : Str
  active : Bool
deriving DecidableEq, Repr

/-- One `per_source` entry of the stats structure. -/
structure StatsEntry where
  source : Str
  type : Str
  url : Str
  ok : Bool
  error : Option Str
deriving DecidableEq, Repr

/-- The aggregate stats returned by `run_ingest_once`. -/
structure Stats where
  total : Nat
  ok : Nat
  errors : Nat
  per_source : List StatsEntry
deriving DecidableEq, Repr

/-- The per-source dispatch: type "rss" and "html" run the respective
scraper (abstracted here as a fallible action, `Except.error e`
standing for a raised exception with formatted text `e`); any other
type raises ValueError.  The except-block of the loop turns the raised
exception into the recorded error string. -/
def dispatchSrc (runRss runHtml : Src → Except Str Unit) (src : Src) :
    Except Str Unit :=
  if src.type = "rss".toList then runRss src
  else if src.type = "html".toList then runHtml src
  else Except.error
    ("ValueError: Unsupported source type: ".toList ++ src.type)

/-- The entry recorded for one source. -/
def entryFor (runRss runHtml : Src → Except Str Unit) (src : Src) :
    StatsEntry :=
  match dispatchSrc runRss runHtml src with
  | Except.ok _ => ⟨src.name, src.type, src.url, true, none⟩
  | Except.error e => ⟨src.name, src.type, src.url, false, some e⟩

/-- The body of the `for src in sources` loop. -/
def ingestStep (runRss runHtml : Src → Except Str Unit) (st : Stats)
    (src : Src) : Stats :=
  match dispatchSrc runRss runHtml src with
  | Except.ok _ =>
      ⟨st.total, st.ok + 1, st.errors,
       st.per_source ++ [⟨src.name, src.type, src.url, true, none⟩]⟩
  | Except.error e =>
      ⟨st.total, st.ok, st.errors + 1,
       st.per_source ++ [⟨src.name, src.type, src.url, false, some e⟩]⟩

/-- The `select(Source)` query with the optional active filter. -/
def selectedSources (sources : List Src) (only_active : Bool) : List Src :=
  if only_active then sources.filter (fun s => s.active) else sources

/-- `ingest.run_ingest_once`. -/
def run_ingest_once (runRss runHtml : Src → Except Str Unit)
    (sources : List Src) (only_active : Bool) : Stats :=
  let sel := selectedSources sources only_active
  sel.foldl (ingestStep runRss runHtml) ⟨sel.length, 0, 0, []⟩

theorem ingest_foldl (runRss runHtml : Src → Except Str Unit)
    (l : List Src) (st : Stats) :
    (l.foldl (ingestStep runRss runHtml) st).total = st.total ∧
    (l.foldl (ingestStep runRss runHtml) st).per_source =
      st.per_source ++ l.map (entryFor runRss runHtml) ∧
    (l.foldl (ingestStep runRss runHtml) st).ok +
      (l.foldl (ingestStep runRss runHtml) st).errors =
      st.ok + st.errors + l.length := by
  induction l generalizing st with
  | nil => simp
  | cons src l' ih =>
    rw [List.foldl_cons]
    obtain ⟨i1, i2, i3⟩ := ih (ingestStep runRss runHtml st src)
    refine ⟨?_, ?_, ?_⟩
    · rw [i1]
      cases hd : dispatchSrc runRss runHtml src <;> simp [ingestStep, hd]
    · rw [i2]
      cases hd : dispatchSrc runRss runHtml src <;>
        simp [ingestStep, entryFor, hd]
    · rw [i3]
      cases hd : dispatchSrc runRss runHtml src <;>
        simp [ingestStep, hd] <;> omega

/-- C5: for every list of selected sources the stats satisfy
total = number of selected sources, ok + errors = total, and
per_source holds exactly one entry per source in order, carrying the
source name/type/url, the ok flag, and the error text of the exception
(if any) — so one source's failure, including the ValueError for an
unsupported type, never drops or aborts the remaining sources. -/
theorem c5_ingest_stats (runRss runHtml : Src → Except Str Unit)
    (sources : List Src) (only_active : Bool) :
    (run_ingest_once runRss runHtml sources only_active).total =
      (selectedSources sources only_active).length ∧
    (run_ingest_once runRss runHtml sources only_active).ok +
      (run_ingest_once runRss runHtml sources only_active).errors =
      (selectedSources sources only_active).length ∧
    (run_ingest_once runRss runHtml sources only_active).per_source =
      (selectedSources sources only_active).map (entryFor runRss runHtml) ∧
    (∀ e ∈ (run_ingest_once runRss runHtml sources only_active).per_source,
      (e.ok = true ↔ e.error = none)) ∧
    (∀ src, src.type ≠ "rss".toList → src.type ≠ "html".toList →
      entryFor runRss runHtml src =
        ⟨src.name, src.type, src.url, false,
         some ("ValueError: Unsupported source type: ".toList ++ src.type)⟩) := by
  obtain ⟨i1, i2, i3⟩ := ingest_foldl runRss runHtml
    (selectedSources sources only_active)
    ⟨(selectedSources sources only_active).length, 0, 0, []⟩
  have hrun : run_ingest_once runRss runHtml sources only_active =
      (selectedSources sources only_active).foldl
        (ingestStep runRss runHtml)
        ⟨(selectedSources sources only_active).length, 0, 0, []⟩ := rfl
  refine ⟨by rw [hrun, i1], by rw [hrun]; simpa using i3,
          by rw [hrun, i2]; simp, ?_, ?_⟩
  · intro e he
    rw [hrun, i2, List.nil_append] at he
    rw [List.mem_map] at he
    obtain ⟨src, _, hsrc⟩ := he
    subst hsrc
    unfold entryFor
    cases hd : dispatchSrc runRss runHtml src <;> simp
  · intro src h1 h2
    unfold entryFor dispatchSrc
    rw [if_neg h1, if_neg h2]

-- ---------------------------------------------------------------------
-- URL parsing helpers (urllib.parse as used by the scrapers)
-- ---------------------------------------------------------------------

/-- Characters allowed in a URL scheme after the first letter. -/
def isSchemeChar (c : Char) : Bool :=
  c.isAlphanum || c = '+' || c = '-' || c = '.'

/-- `urlsplit` scheme detection: `(scheme, remainder)`, scheme `[]`
when absent. -/
def splitScheme (s : Str) : Str × Str :=
  let pre := s.takeWhile (fun c => c ≠ ':')
  let headAlpha : Bool :=
    match pre with
    | c :: _ => c.isAlpha
    | [] => false
  if pre.length < s.length ∧ pre ≠ [] ∧ headAlpha = true ∧
      pre.all isSchemeChar then
    (pre.map Char.toLower, s.drop (pre.length + 1))
  else ([], s)

/-- `urlparse(s).netloc`: present only after a `//`. -/
def netlocOf (s : Str) : Str :=
  let rest := (splitScheme s).2
  if rest.take 2 = "//".toList then
    (rest.drop 2).takeWhile (fun c => c ≠ '/' ∧ c ≠ '?' ∧ c ≠ '#')
  else []

/-- `urlparse(s).path` (query and fragment stripped). -/
def pathOf (s : Str) : Str :=
  let rest := (splitScheme s).2
  let rest2 :=
    if rest.take 2 = "//".toList then
      (rest.drop 2).dropWhile (fun c => c ≠ '/' ∧ c ≠ '?' ∧ c ≠ '#')
    else rest
  rest2.takeWhile (fun c => c ≠ '?' ∧ c ≠ '#')

/-- `urljoin(base, href)` for an href starting with `/` (the only form
the scrapers resolve): a `//…` href takes the base scheme, a `/…` href
replaces the path on the base scheme+netloc.  (Dot-segment
normalization never applies to these inputs.) -/
def urljoinSlash (base href : Str) : Str :=
  let scheme := (splitScheme base).1
  if href.take 2 = "//".toList then
    (if scheme ≠ [] then scheme ++ [':'] ++ href else href)
  else if netlocOf base ≠ [] ∨ scheme ≠ [] then
    (if scheme ≠ [] then scheme ++ [':'] else []) ++ "//".toList ++
      netlocOf base ++ href
  else href

/-- `html._same_host`: hosts match when the href has no host of its own
or the same host as the base.  (`urlparse` does not raise on these
inputs, so the `except: return True` path is dead.) -/
def _same_host (href base : Str) : Bool :=
  netlocOf href = [] || netlocOf href = netlocOf base

/-- The `if href.startswith("/"): href = urljoin(base, href)` step. -/
def resolveHref (base href : Str) : Str :=
  if href.take 1 = "/".toList then urljoinSlash base href else href

/-- Boolean list-prefix test. -/
def isPrefixB : Str → Str → Bool
  | [], _ => true
  | _ :: _, [] => false
  | a :: as, b :: bs => a = b && isPrefixB as bs

/-- Boolean substring test. -/
def isSubB (needle hay : Str) : Bool :=
  isPrefixB needle hay ||
    match hay with
    | [] => false
    | _ :: t => isSubB needle t

/-- Boolean suffix test. -/
def endsWithB (suf s : Str) : Bool := isPrefixB suf.reverse s.reverse

-- ---------------------------------------------------------------------
-- Generic HTML extractor (app/scrapers/html.py)
-- ---------------------------------------------------------------------

/-- Parsed JSON values (the output of `json.loads`). -/
inductive Json where
  | null
  | bool (b : Bool)
  | num (n : Int)
  | str (s : Str)
  | arr (xs : List Json)
  | obj (fields : List (Str × Json))

/-- Python truthiness of a JSON value. -/
def jTruthy : Json → Bool
  | .null => false
  | .bool b => b
  | .num n => decide (n ≠ 0)
  | .str s => decide (s ≠ [])
  | .arr xs => !xs.isEmpty
  | .obj fs => !fs.isEmpty

/-- The string content of a JSON value.  (`str()` of a parsed JSON
string is the string itself, the only case the scraped pages exercise;
for other shapes Python would render a repr — or raise later in
`_clean_title` — which no claim depends on.) -/
def jStr : Json → Str
  | .str s => s
  | _ => []

/-- `item.get(key)` on a parsed JSON object. -/
def jsonLookup (fields : List (Str × Json)) (key : Str) : Option Json :=
  (fields.find? (fun kv => kv.1 = key)).map (fun kv => kv.2)

/-- Python `a or b` over optional JSON values. -/
def pyOrJ (a b : Option Json) : Option Json :=
  match a with
  | some v => if jTruthy v then some v else b
  | none => b

mutual
/-- `_generic_html.iter_items`: yield every dict node of a nested
JSON structure, in preorder. -/
def iterItems : Json → List Json
  | .obj fs => .obj fs :: iterItemsFields fs
  | .arr xs => iterItemsList xs
  | _ => []

def iterItemsFields : List (Str × Json) → List Json
  | [] => []
  | (_, v) :: rest => iterItems v ++ iterItemsFields rest

def iterItemsList : List Json → List Json
  | [] => []
  | v :: rest => iterItems v ++ iterItemsList rest
end

/-- A calendar date (the `datetime` values the extractors construct). -/
structure PDate where
  year : Nat
  month : Nat
  day : Nat
deriving DecidableEq, Repr

def isLeap (y : Nat) : Bool := (y % 4 = 0 ∧ y % 100 ≠ 0) ∨ y % 400 = 0

def daysInMonth (y m : Nat) : Nat :=
  if m = 2 then (if isLeap y then 29 else 28)
  else if m = 4 ∨ m = 6 ∨ m = 9 ∨ m = 11 then 30
  else 31

/-- The constraints `datetime(y, m, d)` enforces (raising otherwise). -/
def validDate (y m d : Nat) : Bool :=
  1 ≤ y && y ≤ 9999 && 1 ≤ m && m ≤ 12 && 1 ≤ d && d ≤ daysInMonth y m

/-- An `<a href>` element: raw href attribute, visible text
(`get_text(" ", strip=True)`), and the text of its parent block when
one exists (`find_parent`). -/
structure Anchor where
  href : Str
  text : Str
  parentText : Option Str
deriving DecidableEq, Repr

/-- A parsed page: the JSON-LD script blocks (`none` for a block
`json.loads` rejects) and all `a[href]` anchors, in document order. -/
structure Soup where
  scripts : List (Option Json)
  anchors : List Anchor

/-- One `_ingest_doc(db, src, title, href, published)` call. -/
structure Upsert where
  title : Str
  href : Str
  published : Option PDate
deriving DecidableEq, Repr

/-- `str(value).split("T")[0]`. -/
def splitT (s : Str) : Str := s.takeWhile (fun c => c ≠ 'T')

/-- The datePublished → dateCreated → dateModified cascade: the first
truthy key whose ISO prefix parses wins; a parse failure falls through
to the next key. -/
def datePick (parseIso : Str → Option PDate)
    (fields : List (Str × Json)) : List Str → Option PDate
  | [] => none
  | key :: rest =>
    match jsonLookup fields key with
    | some v =>
      if jTruthy v then
        match parseIso (splitT (jStr v)) with
        | some d => some d
        | none => datePick parseIso fields rest
      else datePick parseIso fields rest
    | none => datePick parseIso fields rest

/-- The article-like JSON-LD types the extractor keeps. -/
def articleTypes : List Str :=
  ["NewsArticle".toList, "BlogPosting".toList, "Article".toList]

/-- Pass 1 of `_generic_html`: process the dict nodes of the JSON-LD
blocks, collecting `_ingest_doc` calls and the shared `seen` set. -/
def ldProcess (parseIso : Str → Option PDate) (base : Str) :
    List Json → List Str → List Upsert × List Str
  | [], seen => ([], seen)
  | item :: rest, seen =>
    match item with
    | .obj fields =>
      if (jsonLookup fields "@type".toList).any
          (fun tp =>
            match tp with
            | .str s => articleTypes.any (fun n => decide (s = n))
            | _ => false) then
        let titleJ := (pyOrJ (jsonLookup fields "headline".toList)
          (jsonLookup fields "name".toList)).getD (.str [])
        let hrefJ := (pyOrJ (jsonLookup fields "url".toList)
          (jsonLookup fields "mainEntityOfPage".toList)).getD (.str [])
        if jTruthy titleJ = false ∨ jTruthy hrefJ = false then
          ldProcess parseIso base rest seen
        else
          let href := resolveHref base (jStr hrefJ)
          if _same_host href base = false then ldProcess parseIso base rest seen
          else if href ∈ seen then ldProcess parseIso base rest seen
          else
            let pub := datePick parseIso fields
              ["datePublished".toList, "dateCreated".toList,
               "dateModified".toList]
            let (ups, seen') := ldProcess parseIso base rest (href :: seen)
            (⟨jStr titleJ, href, pub⟩ :: ups, seen')
      else ldProcess parseIso base rest seen
    | _ => ldProcess parseIso base rest seen

/-- Pass 2 of `_generic_html` (the anchor fallback): for every anchor
with non-empty stripped href and visible text, resolve root-relative
hrefs, keep same-host candidates not yet seen, and emit an upsert with
the date heuristic applied to the parent block (or the title). -/
def anchorScan (tryDate : Str → Option PDate) (base : Str) :
    List Anchor → List Str → List Upsert
  | [], _ => []
  | a :: rest, seen =>
    let href0 := pyStrip a.href
    let title := pyStrip a.text
    if href0 = [] ∨ title = [] then anchorScan tryDate base rest seen
    else
      let href := resolveHref base href0
      if _same_host href base = false then anchorScan tryDate base rest seen
      else if href ∈ seen then anchorScan tryDate base rest seen
      else
        let pub := tryDate
          (match a.parentText with
           | some t => t
           | none => title)
        ⟨title, href, pub⟩ :: anchorScan tryDate base rest (href :: seen)

/-- `html._generic_html`: JSON-LD pass first; the anchor fallback runs
only when the first pass ingested nothing (`found_any` false), with the
`seen` set carried over.  The result is the ordered list of
`_ingest_doc` calls. -/
def _generic_html (tryDate parseIso : Str → Option PDate) (base : Str)
    (page : Soup) : List Upsert :=
  let items := ((page.scripts.filterMap id).map iterItems).flatten
  let pass1 := ldProcess parseIso base items []
  if pass1.1 = [] then pass1.1 ++ anchorScan tryDate base page.anchors pass1.2
  else pass1.1

-- ---------------------------------------------------------------------
-- Site-specific Texas RRC parser and run_html dispatch
-- ---------------------------------------------------------------------

/-- The RRC nav/utility path deny list.  (In the source every branch of
the non-`/news/` arm falls through to `continue`, so these only
document intent; the deny list never changes the outcome.) -/
def rrcBadPathStarts : List Str :=
  ["/about-us".toList, "/apps".toList, "/forms".toList,
   "/resource-center".toList, "/general-counsel".toList,
   "/surface-mining".toList, "/gas-services".toList,
   "/pipeline-safety".toList, "/critical-infrastructure".toList,
   "/contact-us".toList, "/hearings".toList, "/legal".toList,
   "/public-engagement".toList, "/oil-and-gas".toList,
   "/site-policies".toList, "/newsletters".toList,
   "/announcements".toList]

/-- First match of `/news/` followed by exactly `k` digits and a dash,
scanning left to right (`re.search(r"/news/(\d{k})-", p)`); returns the
digit group. -/
def findNewsDigits (k : Nat) (p : Str) : Option Str :=
  match p with
  | [] => none
  | _ :: rest =>
    if isPrefixB "/news/".toList p ∧
        ((p.drop 6).take k).length = k ∧
        ((p.drop 6).take k).all Char.isDigit ∧
        (p.drop (6 + k)).take 1 = "-".toList then
      some ((p.drop 6).take k)
    else findNewsDigits k rest

def digitsToNat (s : Str) : Nat :=
  s.foldl (fun acc c => 10 * acc + (c.toNat - 48)) 0

/-- Date from an RRC article URL: 8 digits read as YYYYMMDD, else 6
digits read as MMDDYY in the 2000s; an invalid date (datetime raising)
leaves the date unset. -/
def rrcUrlDate (p : Str) : Option PDate :=
  match findNewsDigits 8 p with
  | some d8 =>
    let y := digitsToNat (d8.take 4)
    let m := digitsToNat ((d8.drop 4).take 2)
    let d := digitsToNat ((d8.drop 6).take 2)
    if validDate y m d then some ⟨y, m, d⟩ else none
  | none =>
    match findNewsDigits 6 p with
    | some d6 =>
      let mm := digitsToNat (d6.take 2)
      let dd := digitsToNat ((d6.drop 2).take 2)
      let yy := digitsToNat ((d6.drop 4).take 2)
      if validDate (2000 + yy) mm dd then some ⟨2000 + yy, mm, dd⟩ else none
    | none => none

/-- `html._parse_rrc_news`: keep only same-host `/news/…` links,
de-duplicate, prefer the URL-embedded date, then the text heuristic. -/
def _parse_rrc_news (tryDate : Str → Option PDate) (base : Str) :
    List Anchor → List Str → List Upsert
  | [], _ => []
  | a :: rest, seen =>
    let href0 := pyStrip a.href
    let title := pyStrip a.text
    if href0 = [] ∨ title = [] then _parse_rrc_news tryDate base rest seen
    else
      let href := resolveHref base href0
      if _same_host href base = false then _parse_rrc_news tryDate base rest seen
      else
        let p := pathOf href
        if isPrefixB "/news/".toList p = false then
          -- the source tests the deny list / root / hash-only links
          -- here, but every branch of this arm ends in continue
          _parse_rrc_news tryDate base rest seen
        else if href ∈ seen then _parse_rrc_news tryDate base rest seen
        else
          let pub :=
            match rrcUrlDate p with
            | some d => some d
            | none => tryDate
                (match a.parentText with
                 | some t => t
                 | none => title)
          ⟨title, href, pub⟩ :: _parse_rrc_news tryDate base rest (href :: seen)

/-- `html.run_html` after its fetch: dispatch on the lowercased host of
the source url.  The result is the list of `_ingest_doc` calls. -/
def run_htmlUpserts (tryDate parseIso : Str → Option PDate) (srcUrl : Str)
    (page : Soup) : List Upsert :=
  let host := (netlocOf srcUrl).map Char.toLower
  if endsWithB "rrc.texas.gov".toList host then
    _parse_rrc_news tryDate srcUrl page.anchors []
  else _generic_html tryDate parseIso srcUrl page

-- ---------------------------------------------------------------------
-- RSS scraper with HTML fallback (app/scrapers/rss.py)
-- ---------------------------------------------------------------------

/-- A feedparser entry (absent attributes are `none`).  The
`published_parsed` struct_time is abstracted to the timestamp
`parse_dt` would build from its first six fields. -/
structure FeedEntry where
  title : Option Str
  link : Option Str
  published_parsed : Option Nat
  summary : Option Str
  rssId : Option Str
  tags : Option Str
deriving DecidableEq, Repr

/-- The outcome of `feedparser.parse` (it never raises: structural
problems set `bozo`, with `bozo_exception` holding the exception). -/
structure Feed where
  bozo : Bool
  bozoExc : Bool
  entries : List FeedEntry
deriving Repr

/-- `rss.parse_dt`. -/
def parse_dt (e : FeedEntry) : Option Nat := e.published_parsed

/-- The `create_or_update_doc` call made for one feed entry. -/
structure FeedDoc where
  title : Str
  link : Str
  published_at : Option Nat
  summary : Option Str
  rssId : Option Str
  tags : Option Str
deriving DecidableEq, Repr

/-- The entry loop of `run_rss`: entries without a (truthy) link are
dropped silently; the rest are upserted with title defaulting to
"(untitled)" and the id/tags metadata bag. -/
def feedDocs : List FeedEntry → List FeedDoc
  | [] => []
  | e :: rest =>
    if truthyOS e.link = false then feedDocs rest
    else
      ⟨e.title.getD "(untitled)".toList, e.link.getD [], parse_dt e,
       e.summary, e.rssId, e.tags⟩ :: feedDocs rest

/-- `rss._looks_like_html`: Content-Type mentions html, or the first
512 bytes (lowercased) contain an html opening tag. -/
def _looks_like_html (content_type : Option Str) (body : Str) : Bool :=
  (truthyOS content_type &&
    isSubB "html".toList ((content_type.getD []).map Char.toLower)) ||
  (let head := (body.take 512).map Char.toLower
   isSubB "<html".toList head || isSubB "<!doctype html".toList head)

/-- What `run_rss` did with the response. -/
inductive RssResult where
  | viaHtml (ups : List Upsert)
  | viaFeed (docs : List FeedDoc)

/-- `rss.run_rss` after its fetch, returning the outcome together with
the number of times it invoked the HTML extractor.  `feedOf` models
`feedparser.parse` on the body; `page` is the soup the fallback's own
fetch of `src.url` yields.  `run_htmlUpserts` is defined independently
of this function — the HTML path never re-enters the feed path. -/
def run_rss (tryDate parseIso : Str → Option PDate) (feedOf : Str → Feed)
    (page : Soup) (srcUrl : Str) (content_type : Option Str) (body : Str) :
    RssResult × Nat :=
  if _looks_like_html content_type body then
    (.viaHtml (run_htmlUpserts tryDate parseIso srcUrl page), 1)
  else
    let feed := feedOf body
    if feed.bozo && feed.bozoExc then
      (.viaHtml (run_htmlUpserts tryDate parseIso srcUrl page), 1)
    else (.viaFeed (feedDocs feed.entries), 0)

/-- C6: when the response looks like HTML (content-type or sniffed
body) or feed parsing reports a structural error with an exception,
`run_rss` hands the source to the HTML extractor exactly once and
returns its outcome, raising no parse error; the HTML extractor is
defined without reference to the feed path, so the fallback cannot
recurse. -/
theorem c6_feed_html_fallback (tryDate parseIso : Str → Option PDate)
    (feedOf : Str → Feed) (page : Soup) (srcUrl : Str)
    (content_type : Option Str) (body : Str)
    (h : _looks_like_html content_type body = true ∨
      ((feedOf body).bozo = true ∧ (feedOf body).bozoExc = true)) :
    run_rss tryDate parseIso feedOf page srcUrl content_type body =
      (RssResult.viaHtml (run_htmlUpserts tryDate parseIso srcUrl page), 1) := by
  unfold run_rss
  by_cases hh : _looks_like_html content_type body = true
  · rw [if_pos hh]
  · rcases h with h | h
    · exact absurd h hh
    · rw [if_neg hh, if_pos (by rw [h.1, h.2]; rfl)]

theorem c6_feed_html_fallback_witness :
    run_rss (fun _ => none) (fun _ => none) (fun _ => ⟨false, false, []⟩)
      ⟨[], []⟩ "https://example.gov/feed".toList
      (some "text/html; charset=utf-8".toList) [] =
      (RssResult.viaHtml (run_htmlUpserts (fun _ => none) (fun _ => none)
        "https://example.gov/feed".toList ⟨[], []⟩), 1) :=
  c6_feed_html_fallback (fun _ => none) (fun _ => none)
    (fun _ => ⟨false, false, []⟩) ⟨[], []⟩ "https://example.gov/feed".toList
    (some "text/html; charset=utf-8".toList) [] (Or.inl (by decide))

theorem ldProcess_nil_seen (parseIso : Str → Option PDate) (base : Str) :
    ∀ (items : List Json) (seen : List Str),
      (ldProcess parseIso base items seen).1 = [] →
      (ldProcess parseIso base items seen).2 = seen := by
  intro items
  induction items with
  | nil => intro seen _; rfl
  | cons item rest ih =>
    intro seen h
    match item with
    | .null | .bool _ | .num _ | .str _ | .arr _ =>
      simp only [ldProcess] at h ⊢
      exact ih seen h
    | .obj fields =>
      revert h
      simp only [ldProcess]
      split
      · split
        · exact fun h => ih seen h
        · split
          · exact fun h => ih seen h
          · split
            · exact fun h => ih seen h
            · intro h
              simp at h
      · exact fun h => ih seen h

theorem anchorScan_inv (tryDate : Str → Option PDate) (base : Str) :
    ∀ (anchors : List Anchor) (seen : List Str),
      ((anchorScan tryDate base anchors seen).map (fun u => u.href)).Nodup ∧
      ∀ u ∈ anchorScan tryDate base anchors seen,
        u.href ∉ seen ∧ _same_host u.href base = true ∧
        ∃ a ∈ anchors, pyStrip a.text ≠ [] ∧ pyStrip a.href ≠ [] ∧
          u.href = resolveHref base (pyStrip a.href) := by
  intro anchors
  induction anchors with
  | nil =>
    intro seen
    refine ⟨by simp [anchorScan], ?_⟩
    intro u hu
    simp [anchorScan] at hu
  | cons a rest ih =>
    intro seen
    simp only [anchorScan]
    split
    · refine ⟨(ih seen).1, ?_⟩
      intro u hu
      obtain ⟨h1, h2, a', ha', hrest⟩ := (ih seen).2 u hu
      exact ⟨h1, h2, a', by simp [ha'], hrest⟩
    · split
      · refine ⟨(ih seen).1, ?_⟩
        intro u hu
        obtain ⟨h1, h2, a', ha', hrest⟩ := (ih seen).2 u hu
        exact ⟨h1, h2, a', by simp [ha'], hrest⟩
      · split
        · refine ⟨(ih seen).1, ?_⟩
          intro u hu
          obtain ⟨h1, h2, a', ha', hrest⟩ := (ih seen).2 u hu
          exact ⟨h1, h2, a', by simp [ha'], hrest⟩
        · rename_i hskip hhost hseen
          have hhost' : _same_host (resolveHref base (pyStrip a.href)) base =
              true := by
            revert hhost
            cases _same_host (resolveHref base (pyStrip a.href)) base <;> simp
          have hskip' : pyStrip a.href ≠ [] ∧ pyStrip a.text ≠ [] := by
            constructor <;> (intro e; exact hskip (by simp [e]))
          constructor
          · rw [List.map_cons]
            refine List.nodup_cons.mpr ⟨?_, (ih _).1⟩
            intro hmem
            rw [List.mem_map] at hmem
            obtain ⟨u, hu, hhref⟩ := hmem
            have hnot := ((ih (resolveHref base (pyStrip a.href) :: seen)).2
              u hu).1
            exact hnot (by rw [hhref]; exact List.mem_cons_self _ _)
          · intro u hu
            rcases List.mem_cons.mp hu with rfl | hu'
            · exact ⟨hseen, hhost',
                ⟨a, List.mem_cons_self a rest,
                 hskip'.2, hskip'.1, rfl⟩⟩
            · obtain ⟨h1, h2, a', ha', hrest⟩ :=
                (ih (resolveHref base (pyStrip a.href) :: seen)).2 u hu'
              refine ⟨fun hm => h1 (List.mem_cons_of_mem _ hm), h2,
                a', by simp [ha'], hrest⟩

/-- C8 (amended): when the structured-data pass yields zero items, the
anchor fallback processes every hyperlink with non-empty stripped
visible text and href; only root-relative hrefs (leading "/") are
resolved against the base, other hrefs are used verbatim; candidates
are kept when `_same_host` accepts them (absent host counts as same
host, which lets `mailto:`/`tel:`/fragment-only/trailing-`#` links
through — no scheme-based rejection exists); and candidates are
de-duplicated within the page by final URL. -/
theorem c8_anchor_fallback (tryDate parseIso : Str → Option PDate)
    (base : Str) (page : Soup)
    (hempty : (ldProcess parseIso base
        (((page.scripts.filterMap id).map iterItems).flatten) []).1 = []) :
    _generic_html tryDate parseIso base page =
      anchorScan tryDate base page.anchors [] ∧
    ((_generic_html tryDate parseIso base page).map (fun u => u.href)).Nodup ∧
    ∀ u ∈ _generic_html tryDate parseIso base page,
      _same_host u.href base = true ∧
      ∃ a ∈ page.anchors, pyStrip a.text ≠ [] ∧ pyStrip a.href ≠ [] ∧
        u.href = resolveHref base (pyStrip a.href) := by
  have hseen := ldProcess_nil_seen parseIso base
    (((page.scripts.filterMap id).map iterItems).flatten) [] hempty
  have hgen : _generic_html tryDate parseIso base page =
      anchorScan tryDate base page.anchors [] := by
    unfold _generic_html
    rw [if_pos hempty, hempty, hseen, List.nil_append]
  refine ⟨hgen, ?_, ?_⟩
  · rw [hgen]
    exact (anchorScan_inv tryDate base page.anchors []).1
  · intro u hu
    rw [hgen] at hu
    obtain ⟨_, h2, h3⟩ := (anchorScan_inv tryDate base page.anchors []).2 u hu
    exact ⟨h2, h3⟩

/-- Page for the C8 witness: no structured data, one root-relative and
one absolute same-host link. -/
def c8page : Soup :=
  ⟨[], [⟨"/a.html".toList, "A".toList, none⟩,
        ⟨"https://example.gov/b".toList, "B".toList, none⟩]⟩

theorem c8_anchor_fallback_witness :
    _generic_html (fun _ => none) (fun _ => none)
        "https://example.gov/idx".toList c8page =
      anchorScan (fun _ => none) "https://example.gov/idx".toList
        c8page.anchors [] ∧
    ((_generic_html (fun _ => none) (fun _ => none)
        "https://example.gov/idx".toList c8page).map
      (fun u => u.href)).Nodup ∧
    ∀ u ∈ _generic_html (fun _ => none) (fun _ => none)
        "https://example.gov/idx".toList c8page,
      _same_host u.href "https://example.gov/idx".toList = true ∧
      ∃ a ∈ c8page.anchors, pyStrip a.text ≠ [] ∧ pyStrip a.href ≠ [] ∧
        u.href = resolveHref "https://example.gov/idx".toList
          (pyStrip a.href) :=
  c8_anchor_fallback (fun _ => none) (fun _ => none)
    "https://example.gov/idx".toList c8page rfl

/-- Page refuting the rejection clauses of C8: a `mailto:` link, a
plain relative link, an off-host link, a fragment-only link, and a
trailing-`#` link. -/
def c8cexPage : Soup :=
  ⟨[], [⟨"mailto:bob@example.com".toList, "Contact".toList, none⟩,
        ⟨"news.html".toList, "News".toList, none⟩,
        ⟨"https://other.org/a".toList, "Other".toList, none⟩,
        ⟨"#top".toList, "Top".toList, none⟩,
        ⟨"https://example.gov/page#".toList, "Trail".toList, none⟩]⟩

/-- C8 counterexample: the anchor fallback upserts the `mailto:` link,
the fragment-only link, and the trailing-`#` link (no such rejection
exists), and passes the relative `news.html` through unresolved;
only the off-host link is dropped. -/
theorem c8_counterexample :
    (_generic_html (fun _ => none) (fun _ => none)
        "https://example.gov/index.html".toList c8cexPage).map
      (fun u => u.href) =
      ["mailto:bob@example.com".toList, "news.html".toList,
       "#top".toList, "https://example.gov/page#".toList] := by
  decide
